import Mathlib

/-!
Verification of the sparse/dense tensor transformation library
(`tensorx/transform.py`).

The embedding models the library's data as follows:

* a TensorFlow `SparseTensor` / `SparseTensorValue` is a coordinate-list
  record: a list of coordinate tuples (`indices`, each tuple a `List ℤ`,
  int64 in the source), a list of values of the same length, and a
  `dense_shape`;
* a dense tensor is a shape together with a total value map on coordinates
  (entries outside the shape are irrelevant);
* float values are modelled as rationals (the library only copies, adds,
  divides and compares values with zero, so ℚ is faithful for these
  operations);
* TensorFlow primitives used by the library (`sparse_add` with the default
  zero threshold, `sparse_retain`, `sparse_tensor_to_dense`, `boolean_mask`,
  `where`, `gather_nd`, `tile`/`stack`/`reshape`, `nn.dropout`) are modelled
  by their documented semantics on canonically ordered coordinate lists.

The canonical well-formedness invariant of a TensorFlow sparse tensor
(lexicographically sorted, duplicate-free index list, one value per index)
is `SWF` below; TensorFlow's sparse kernels assume it of their inputs.
-/

namespace Tensorx

/-- Coordinate-list sparse tensor: `indices` holds one coordinate tuple per
stored entry, `values` the corresponding stored values, `dense_shape` the
logical shape of the represented dense tensor. -/
structure SparseTensor (α : Type) where
  indices : List (List ℤ)
  values : List α
  dense_shape : List ℕ
deriving DecidableEq, Repr

/-- Dense tensor: a shape and a total assignment of values to coordinates.
Only the values at coordinates within the shape are meaningful. -/
structure DenseTensor (α : Type) where
  shape : List ℕ
  data : List ℤ → α

/-- Sum of the values stored in an entry list at coordinate `c` (the value a
coordinate-list representation denotes at `c`; `0` when `c` is absent, the
stored value when the keys are duplicate-free). -/
def entryVal {α : Type} [AddCommMonoid α] (es : List (List ℤ × α)) (c : List ℤ) : α :=
  ((es.filter (fun e => e.1 = c)).map Prod.snd).sum

/-- Value denoted by a sparse tensor at coordinate `c`. -/
def spValue {α : Type} [AddCommMonoid α] (sp : SparseTensor α) (c : List ℤ) : α :=
  entryVal (sp.indices.zip sp.values) c

/-- Well-formedness of a sparse tensor as assumed by TensorFlow's sparse
kernels: indices strictly sorted in row-major (lexicographic) order, hence
duplicate-free, and one value per index. -/
def SWF {α : Type} (sp : SparseTensor α) : Prop :=
  sp.indices.Pairwise (· < ·) ∧ sp.values.length = sp.indices.length

/-- Insertion of a coordinate into a sorted coordinate list, keeping the
list sorted and dropping the insertion when the coordinate is already
present. -/
def insertSorted (x : List ℤ) : List (List ℤ) → List (List ℤ)
  | [] => [x]
  | b :: bs =>
    if x < b then x :: b :: bs
    else if b < x then b :: insertSorted x bs
    else b :: bs

/-- Sorted union of two sorted coordinate lists, collapsing coordinates that
occur in both (the index set produced by TensorFlow's `sparse_add`). -/
def mergeUnion (as bs : List (List ℤ)) : List (List ℤ) :=
  as.foldr insertSorted bs

/-- Model of `tf.sparse_add` on two sparse tensors with its default zero
threshold: the output index set is the sorted union of the two index sets,
the output value at each kept coordinate is the sum of the operands' values
there, and (threshold 0) coordinates whose sum is zero are kept. -/
def sparse_add {α : Type} [AddCommMonoid α] (a b : SparseTensor α) : SparseTensor α :=
  let u := mergeUnion a.indices b.indices
  ⟨u, u.map (fun c => spValue a c + spValue b c), a.dense_shape⟩

/-- Model of `tf.sparse_retain`: keep exactly the entries whose position in
the entry list is marked `true` in `to_retain`. -/
def sparse_retain {α : Type} (sp : SparseTensor α) (to_retain : List Bool) : SparseTensor α :=
  let kept := ((sp.indices.zip sp.values).zip to_retain).filter (fun e => e.2)
  ⟨kept.map (fun e => e.1.1), kept.map (fun e => e.1.2), sp.dense_shape⟩

/-- The source's `zero_updates` local in `sparse_put`: the updates with all
values replaced by zeros (`array_ops.zeros` of the update values' shape). -/
def put_zero_updates {α : Type} [AddCommMonoid α] (sp_updates : SparseTensor α) :
    SparseTensor α :=
  ⟨sp_updates.indices, List.replicate sp_updates.values.length 0, sp_updates.dense_shape⟩

/-- The source's `proto_result` local in `sparse_put`: the tensor plus the
zeroed updates, establishing the combined index set. -/
def put_proto {α : Type} [AddCommMonoid α] (sp_tensor sp_updates : SparseTensor α) :
    SparseTensor α :=
  sparse_add sp_tensor (put_zero_updates sp_updates)

/-- The source's `proto_ones` local in `sparse_put`: an all-ones (int8)
marker on the combined index set. -/
def put_proto_ones {α : Type} [AddCommMonoid α] (sp_tensor sp_updates : SparseTensor α) :
    SparseTensor ℤ :=
  ⟨(put_proto sp_tensor sp_updates).indices,
   List.replicate (put_proto sp_tensor sp_updates).values.length 1,
   (put_proto sp_tensor sp_updates).dense_shape⟩

/-- The source's `sp_mask` local in `sparse_put`: a minus-one (int8) marker
on the update index set. -/
def put_sp_mask {α : Type} (sp_updates : SparseTensor α) : SparseTensor ℤ :=
  ⟨sp_updates.indices, List.replicate sp_updates.values.length (-1), sp_updates.dense_shape⟩

/-- The source's `to_retain` boolean vector in `sparse_put`: the ones marker
plus the minus-one marker, an entry being retained iff the sum is non-zero
(that is, iff its coordinate is not an update coordinate). -/
def put_retain_mask {α : Type} [AddCommMonoid α] (sp_tensor sp_updates : SparseTensor α) :
    List Bool :=
  (sparse_add (put_proto_ones sp_tensor sp_updates) (put_sp_mask sp_updates)).values.map
    (fun v => decide (v ≠ 0))

/-- The source's `tensor_masked` local in `sparse_put`: the combined tensor
with the entries at update coordinates dropped. -/
def put_tensor_masked {α : Type} [AddCommMonoid α] (sp_tensor sp_updates : SparseTensor α) :
    SparseTensor α :=
  sparse_retain (put_proto sp_tensor sp_updates) (put_retain_mask sp_tensor sp_updates)

/-- Embedding of `transform.sparse_put`: overwrite `sp_tensor` with the
entries of `sp_updates`.  Mirrors the source line by line through the
`put_*` definitions above: add a zero-valued copy of the updates to the
tensor to build the combined index set (`proto_result`), add an all-ones
marker on the combined set to a minus-one marker on the update set to find
the entries to retain, drop the entries at update coordinates with
`sparse_retain`, and add the updates back in.  (The source's cast of
`sp_updates` to `sp_tensor`'s dtype is the identity here since both sides
carry the same value type.) -/
def sparse_put {α : Type} [AddCommMonoid α] (sp_tensor sp_updates : SparseTensor α) :
    SparseTensor α :=
  sparse_add (put_tensor_masked sp_tensor sp_updates) sp_updates

/-- Embedding of `transform.dense_put`: materialize an all-ones (float)
marker sparse tensor and the updates as dense maps, then select the update
value wherever the marker is non-zero and the original value elsewhere
(`array_ops.where`). -/
def dense_put {α : Type} [AddCommMonoid α] (tensor : DenseTensor α)
    (sp_updates : SparseTensor α) : DenseTensor α :=
  let markers := List.replicate sp_updates.values.length (1 : ℚ)
  let sparse_marker_tensor : SparseTensor ℚ :=
    ⟨sp_updates.indices, markers, sp_updates.dense_shape⟩
  ⟨tensor.shape, fun c =>
    if spValue sparse_marker_tensor c ≠ 0 then spValue sp_updates c else tensor.data c⟩

/-- Model of rank-1 `tf.boolean_mask`: keep the rows of `xs` whose position
is marked `true` in `mask`. -/
def booleanMask {α : Type} (xs : List α) (mask : List Bool) : List α :=
  ((xs.zip mask).filter (fun e => e.2)).map (fun e => e.1)

/-- Model of `tf.nn.dropout` on a value list: `mask i` is the random
decision to keep element `i` (drawn with probability `keep_prob`); kept
elements are scaled by `1 / keep_prob`, dropped elements become `0`. -/
def tf_dropout (keep_prob : ℚ) (mask : ℕ → Bool) (values : List ℚ) : List ℚ :=
  values.enum.map (fun p => if mask p.1 then p.2 / keep_prob else 0)

/-- Embedding of `transform.sparse_dropout`: apply dropout to the values,
then keep only the entries (values and the matching index rows) whose
dropped value is non-zero. -/
def sparse_dropout (keep_prob : ℚ) (mask : ℕ → Bool) (sp_tensor : SparseTensor ℚ) :
    SparseTensor ℚ :=
  let drop_values := tf_dropout keep_prob mask sp_tensor.values
  let not_zero := drop_values.map (fun v => decide (v ≠ 0))
  let values := booleanMask drop_values not_zero
  let indices := booleanMask sp_tensor.indices not_zero
  ⟨indices, values, sp_tensor.dense_shape⟩

/-- All coordinates of a dense shape in row-major enumeration order (the
order in which `tf.where` reports the positions of `true` entries). -/
def allCoords : List ℕ → List (List ℤ)
  | [] => [[]]
  | d :: ds => (List.range d).flatMap (fun i => (allCoords ds).map (fun c => (i : ℤ) :: c))

/-- Embedding of `transform.to_sparse`: the coordinates with a non-zero
value, in row-major order (`tf.where` on `tensor ≠ 0`), with the values
gathered at those coordinates (`gather_nd`) and the input's shape. -/
def to_sparse {α : Type} [Zero α] [DecidableEq α] (tensor : DenseTensor α) :
    SparseTensor α :=
  let idx := (allCoords tensor.shape).filter (fun c => tensor.data c ≠ 0)
  ⟨idx, idx.map tensor.data, tensor.shape⟩

/-- Embedding of `transform.to_dense` (`tf.sparse_tensor_to_dense` with
default value `0`): the dense tensor of the sparse tensor's shape holding
the stored value at stored coordinates and `0` elsewhere. -/
def to_dense {α : Type} [AddCommMonoid α] (sp_tensor : SparseTensor α) : DenseTensor α :=
  ⟨sp_tensor.dense_shape, fun c => spValue sp_tensor c⟩

/-- Embedding of `transform.batch_to_matrix_indices` (the index
computation): build the row-number matrix by tiling the column
`range(shape[0])` to width `shape[1]`, pair it elementwise with the input
(`stack` on the last axis), and flatten to a list of `[row, value]` pairs
(`reshape [-1, 2]`). -/
def batch_to_matrix_indices (tensor : List (List ℤ)) : List (List ℤ) :=
  let shape0 := tensor.length
  let shape1 := (tensor.headD []).length
  let rows := (List.range shape0).map (fun (r : ℕ) => List.replicate shape1 (r : ℤ))
  let enum := List.zipWith (fun rrow trow => List.zipWith (fun r v => [r, v]) rrow trow) rows tensor
  enum.flatten

/-- Element dtypes relevant to `batch_to_matrix_indices`' type check. -/
inductive DType where
  | float32
  | float64
  | int8
  | int32
  | int64
deriving DecidableEq, Repr

/-- Modelled from the spec: `to_tensor_cast` lives in `tensorx/utils.py`,
which is not part of the sources; per the spec's interface section (inputs
are "normalized internally to the runtime's native tensor type before use")
it is modelled as a normalization that preserves the input's element dtype
and contents. -/
def to_tensor_cast (input_dtype : DType) (tensor : List (List ℤ)) :
    DType × List (List ℤ) :=
  (input_dtype, tensor)

/-- Embedding of `transform.batch_to_matrix_indices` including its dtype
check: after normalizing the input, raise `TypeError` ("InvalidType" in the
spec) unless the element dtype is int32 or int64. -/
def batch_to_matrix_indices_checked (input_dtype : DType) (tensor : List (List ℤ)) :
    Except String (List (List ℤ)) :=
  let t := to_tensor_cast input_dtype tensor
  if t.1 ≠ DType.int32 ∧ t.1 ≠ DType.int64 then
    Except.error "Invalid tensor type: expected int32 or int64"
  else
    Except.ok (batch_to_matrix_indices t.2)

/-- Embedding of `transform.complete_shape`: a shape dimension is `none`
when unknown; a fully defined shape is returned unchanged, otherwise the
result is the reference tensor's leading dimension followed by the shape's
second dimension. -/
def complete_shape {α : Type} (tensor : DenseTensor α) (shape : List (Option ℕ)) :
    List (Option ℕ) :=
  if shape.all (fun d => d.isSome) then shape
  else [some (tensor.shape.headD 0), shape.getD 1 none]

/-- Embedding of the inner loop of `transform.index_list_to_sparse` for one
row: each listed index `i` must satisfy `i < bound` (`dense_shape[1]`),
otherwise a `ValueError` is raised; accepted indices become `[row, i]`
coordinate pairs in listed order. -/
def rowPairs (bound : ℕ) (row : ℕ) : List ℤ → Except String (List (List ℤ))
  | [] => Except.ok []
  | i :: is =>
    if (bound : ℤ) ≤ i then
      Except.error "Invalid shape: index value >= dense_shape[1]"
    else
      (rowPairs bound row is).map (fun rest => [(row : ℤ), i] :: rest)

/-- Embedding of the outer loop of `transform.index_list_to_sparse`:
process the rows in order, numbering them from `row` upwards, and
concatenate their coordinate pairs. -/
def allPairs (bound : ℕ) : ℕ → List (List ℤ) → Except String (List (List ℤ))
  | _, [] => Except.ok []
  | row, r :: rs =>
    match rowPairs bound row r with
    | Except.error e => Except.error e
    | Except.ok a => (allPairs bound (row + 1) rs).map (fun b => a ++ b)

/-- Embedding of `transform.index_list_to_sparse`: convert a ragged list of
index lists into a `SparseTensorValue` with `[row, index]` coordinates in
enumeration order, an all-ones value list of the same length, and the given
dense shape; raise `ValueError` if any index reaches `dense_shape[1]`. -/
def index_list_to_sparse (indices : List (List ℤ)) (dense_shape : List ℕ) :
    Except String (SparseTensor ℚ) :=
  (allPairs (dense_shape.getD 1 0) 0 indices).map
    (fun idx => ⟨idx, List.replicate idx.length 1, dense_shape⟩)

/-- Row-major enumeration of the `[row, index]` coordinate pairs of a ragged
list of index lists, starting at row number `s` (the reference order in
which `index_list_to_sparse` and the spec enumerate coordinates). -/
def raggedCoords (s : ℕ) (ixs : List (List ℤ)) : List (List ℤ) :=
  (ixs.enumFrom s).flatMap (fun p => p.2.map (fun i => [(p.1 : ℤ), i]))

/-! Helper lemmas about sorted coordinate lists and their merges. -/

theorem mem_insertSorted (x c : List ℤ) :
    ∀ (l : List (List ℤ)), c ∈ insertSorted x l ↔ c = x ∨ c ∈ l := by
  intro l
  induction l with
  | nil => simp [insertSorted]
  | cons b bs ih =>
    by_cases hxb : x < b
    · rw [insertSorted, if_pos hxb]
      exact List.mem_cons
    · by_cases hbx : b < x
      · rw [insertSorted, if_neg hxb, if_pos hbx]
        rw [List.mem_cons, ih, List.mem_cons]
        tauto
      · have hxbeq : x = b := le_antisymm (not_lt.mp hbx) (not_lt.mp hxb)
        rw [insertSorted, if_neg hxb, if_neg hbx]
        subst hxbeq
        rw [List.mem_cons]
        tauto

theorem pairwise_insertSorted (x : List ℤ) :
    ∀ (l : List (List ℤ)), l.Pairwise (· < ·) → (insertSorted x l).Pairwise (· < ·) := by
  intro l
  induction l with
  | nil => intro _; simp [insertSorted]
  | cons b bs ih =>
    intro hl
    rw [List.pairwise_cons] at hl
    obtain ⟨hb, hbs⟩ := hl
    by_cases hxb : x < b
    · rw [insertSorted, if_pos hxb, List.pairwise_cons]
      refine ⟨?_, List.pairwise_cons.mpr ⟨hb, hbs⟩⟩
      intro y hy
      rcases List.mem_cons.mp hy with rfl | hy
      · exact hxb
      · exact lt_trans hxb (hb y hy)
    · by_cases hbx : b < x
      · rw [insertSorted, if_neg hxb, if_pos hbx, List.pairwise_cons]
        refine ⟨?_, ih hbs⟩
        intro y hy
        rcases (mem_insertSorted x y bs).mp hy with rfl | hy
        · exact hbx
        · exact hb y hy
      · rw [insertSorted, if_neg hxb, if_neg hbx]
        exact List.pairwise_cons.mpr ⟨hb, hbs⟩

theorem mem_mergeUnion (c : List ℤ) :
    ∀ (as bs : List (List ℤ)), c ∈ mergeUnion as bs ↔ c ∈ as ∨ c ∈ bs := by
  intro as bs
  induction as with
  | nil => simp [mergeUnion]
  | cons a as ih =>
    show c ∈ insertSorted a (mergeUnion as bs) ↔ _
    rw [mem_insertSorted, ih]
    simp [List.mem_cons]
    tauto

theorem pairwise_mergeUnion (as : List (List ℤ)) {bs : List (List ℤ)}
    (hbs : bs.Pairwise (· < ·)) : (mergeUnion as bs).Pairwise (· < ·) := by
  induction as with
  | nil => exact hbs
  | cons a as ih => exact pairwise_insertSorted a _ ih

theorem nodup_of_pairwise_lt {l : List (List ℤ)} (h : l.Pairwise (· < ·)) : l.Nodup :=
  h.imp (fun hab => ne_of_lt hab)

theorem mergeUnion_eq_left {as bs : List (List ℤ)} (has : as.Pairwise (· < ·))
    (hbs : bs.Pairwise (· < ·)) (hsub : ∀ x ∈ bs, x ∈ as) : mergeUnion as bs = as := by
  have hmerge : (mergeUnion as bs).Pairwise (· < ·) := pairwise_mergeUnion as hbs
  have : IsAntisymm (List ℤ) (· < ·) := ⟨fun a b h1 h2 => absurd h1 (asymm h2)⟩
  refine List.eq_of_perm_of_sorted ?_ hmerge has
  refine (List.perm_ext_iff_of_nodup (nodup_of_pairwise_lt hmerge)
    (nodup_of_pairwise_lt has)).mpr ?_
  intro x
  rw [mem_mergeUnion]
  constructor
  · rintro (hx | hx)
    · exact hx
    · exact hsub x hx
  · exact fun hx => Or.inl hx

/-! Helper lemmas about values stored in coordinate-entry lists. -/

theorem replicate_length_eq_map {α β : Type} (ks : List α) (x : β) :
    List.replicate ks.length x = ks.map (fun _ => x) := by
  induction ks with
  | nil => rfl
  | cons k ks ih => rw [List.length_cons, List.replicate_succ, ih, List.map_cons]

theorem zip_self_map {α β : Type} (l : List α) (f : α → β) :
    l.zip (l.map f) = l.map (fun a => (a, f a)) := by
  have h := List.zip_map' id f l
  simpa using h

theorem entryVal_cons {α : Type} [AddCommMonoid α] (k : List ℤ) (v : α)
    (es : List (List ℤ × α)) (c : List ℤ) :
    entryVal ((k, v) :: es) c = (if k = c then v else 0) + entryVal es c := by
  by_cases hkc : k = c
  · simp [entryVal, List.filter_cons, hkc]
  · simp [entryVal, List.filter_cons, hkc]

theorem entryVal_eq_zero {α : Type} [AddCommMonoid α] {es : List (List ℤ × α)} {c : List ℤ}
    (h : ∀ e ∈ es, e.1 ≠ c) : entryVal es c = 0 := by
  induction es with
  | nil => rfl
  | cons e es ih =>
    obtain ⟨k, v⟩ := e
    rw [entryVal_cons, if_neg (h (k, v) (List.mem_cons_self _ _)),
      ih (fun e he => h e (List.mem_cons_of_mem _ he))]
    simp

theorem entryVal_map_key {α : Type} [AddCommMonoid α] (ks : List (List ℤ)) (f : List ℤ → α)
    (c : List ℤ) (hnd : ks.Nodup) :
    entryVal (ks.map (fun k => (k, f k))) c = if c ∈ ks then f c else 0 := by
  induction ks with
  | nil => simp [entryVal]
  | cons k ks ih =>
    rw [List.nodup_cons] at hnd
    rw [List.map_cons, entryVal_cons, ih hnd.2]
    by_cases hkc : k = c
    · subst hkc
      rw [if_pos rfl, if_neg hnd.1, if_pos (List.mem_cons_self _ _), add_zero]
    · rw [if_neg hkc, zero_add]
      by_cases hc : c ∈ ks
      · rw [if_pos hc, if_pos (List.mem_cons_of_mem _ hc)]
      · have hnc : c ∉ k :: ks := by
          intro hmem
          rcases List.mem_cons.mp hmem with heq | hmem2
          · exact hkc heq.symm
          · exact hc hmem2
        rw [if_neg hc, if_neg hnc]

theorem entryVal_of_mem_nodup {α : Type} [AddCommMonoid α] {es : List (List ℤ × α)}
    {k : List ℤ} {v : α} (hnd : (es.map Prod.fst).Nodup) (hm : (k, v) ∈ es) :
    entryVal es k = v := by
  induction es with
  | nil => cases hm
  | cons e es ih =>
    obtain ⟨k0, v0⟩ := e
    rw [List.map_cons, List.nodup_cons] at hnd
    rcases List.mem_cons.mp hm with heq | hm
    · cases heq
      rw [entryVal_cons, if_pos rfl, entryVal_eq_zero ?_, add_zero]
      intro e he hek
      obtain ⟨ek, ev⟩ := e
      have hekk : ek = k := hek
      have hmem : ek ∈ List.map Prod.fst es := List.mem_map_of_mem Prod.fst he
      exact hnd.1 (hekk ▸ hmem)
    · have hk : k ∈ es.map Prod.fst := List.mem_map_of_mem Prod.fst hm
      rw [entryVal_cons, if_neg (fun h => hnd.1 (by rw [h]; exact hk)), ih hnd.2 hm, zero_add]

theorem spValue_eq_zero {α : Type} [AddCommMonoid α] {sp : SparseTensor α} {c : List ℤ}
    (h : c ∉ sp.indices) : spValue sp c = 0 := by
  refine entryVal_eq_zero ?_
  intro e he hek
  obtain ⟨k, v⟩ := e
  exact h (hek ▸ (List.of_mem_zip he).1)

theorem spValue_mk_map {α : Type} [AddCommMonoid α] (ks : List (List ℤ)) (f : List ℤ → α)
    (s : List ℕ) (c : List ℤ) (hnd : ks.Nodup) :
    spValue ⟨ks, ks.map f, s⟩ c = if c ∈ ks then f c else 0 := by
  show entryVal (ks.zip (ks.map f)) c = _
  rw [zip_self_map, entryVal_map_key ks f c hnd]

/-! Helper lemmas about the modelled TensorFlow primitives. -/

theorem sparse_add_indices {α : Type} [AddCommMonoid α] (a b : SparseTensor α) :
    (sparse_add a b).indices = mergeUnion a.indices b.indices := rfl

theorem sparse_add_values {α : Type} [AddCommMonoid α] (a b : SparseTensor α) :
    (sparse_add a b).values
      = (mergeUnion a.indices b.indices).map (fun c => spValue a c + spValue b c) := rfl

theorem sparse_add_dense_shape {α : Type} [AddCommMonoid α] (a b : SparseTensor α) :
    (sparse_add a b).dense_shape = a.dense_shape := rfl

theorem spValue_sparse_add {α : Type} [AddCommMonoid α] (a b : SparseTensor α)
    (hb : b.indices.Pairwise (· < ·)) (c : List ℤ) :
    spValue (sparse_add a b) c = spValue a c + spValue b c := by
  have hnd : (mergeUnion a.indices b.indices).Nodup :=
    nodup_of_pairwise_lt (pairwise_mergeUnion a.indices hb)
  show spValue ⟨mergeUnion a.indices b.indices,
    (mergeUnion a.indices b.indices).map (fun c => spValue a c + spValue b c),
    a.dense_shape⟩ c = _
  rw [spValue_mk_map _ _ _ _ hnd]
  by_cases hc : c ∈ mergeUnion a.indices b.indices
  · rw [if_pos hc]
  · rw [if_neg hc]
    rw [mem_mergeUnion] at hc
    push_neg at hc
    rw [spValue_eq_zero hc.1, spValue_eq_zero hc.2, add_zero]

theorem SWF_sparse_add {α : Type} [AddCommMonoid α] (a b : SparseTensor α)
    (hb : b.indices.Pairwise (· < ·)) : SWF (sparse_add a b) := by
  refine ⟨pairwise_mergeUnion a.indices hb, ?_⟩
  show ((mergeUnion a.indices b.indices).map _).length = (mergeUnion a.indices b.indices).length
  exact List.length_map _ _

theorem sparse_retain_mk_map {α : Type} (ks : List (List ℤ)) (f : List ℤ → α)
    (g : List ℤ → Bool) (s : List ℕ) :
    sparse_retain ⟨ks, ks.map f, s⟩ (ks.map g)
      = ⟨ks.filter g, (ks.filter g).map f, s⟩ := by
  show SparseTensor.mk
    ((((ks.zip (ks.map f)).zip (ks.map g)).filter (fun e => e.2)).map (fun e => e.1.1))
    ((((ks.zip (ks.map f)).zip (ks.map g)).filter (fun e => e.2)).map (fun e => e.1.2))
    s = _
  rw [zip_self_map, List.zip_map']
  rw [List.filter_map, List.map_map, List.map_map]
  simp [Function.comp_def]

/-! Helper lemmas leading to the characterization of `sparse_put`. -/

theorem put_zero_updates_indices {α : Type} [AddCommMonoid α] (U : SparseTensor α) :
    (put_zero_updates U).indices = U.indices := rfl

theorem put_sp_mask_indices {α : Type} (U : SparseTensor α) :
    (put_sp_mask U).indices = U.indices := rfl

theorem put_proto_indices {α : Type} [AddCommMonoid α] (S U : SparseTensor α) :
    (put_proto S U).indices = mergeUnion S.indices U.indices := rfl

theorem put_proto_ones_indices {α : Type} [AddCommMonoid α] (S U : SparseTensor α) :
    (put_proto_ones S U).indices = (put_proto S U).indices := rfl

theorem spValue_put_zero_updates {α : Type} [AddCommMonoid α] (U : SparseTensor α)
    (hU : SWF U) (c : List ℤ) : spValue (put_zero_updates U) c = 0 := by
  have hrepl : List.replicate U.values.length (0 : α) = U.indices.map (fun _ => 0) := by
    rw [hU.2, replicate_length_eq_map]
  show spValue ⟨U.indices, List.replicate U.values.length 0, U.dense_shape⟩ c = 0
  rw [hrepl, spValue_mk_map _ _ _ _ (nodup_of_pairwise_lt hU.1), ite_self]

theorem spValue_put_sp_mask {α : Type} [AddCommMonoid α] (U : SparseTensor α)
    (hU : SWF U) (c : List ℤ) :
    spValue (put_sp_mask U) c = if c ∈ U.indices then (-1 : ℤ) else 0 := by
  have hrepl : List.replicate U.values.length (-1 : ℤ) = U.indices.map (fun _ => -1) := by
    rw [hU.2, replicate_length_eq_map]
  show spValue ⟨U.indices, List.replicate U.values.length (-1), U.dense_shape⟩ c = _
  rw [hrepl, spValue_mk_map _ _ _ _ (nodup_of_pairwise_lt hU.1)]

theorem pairwise_put_proto {α : Type} [AddCommMonoid α] (S U : SparseTensor α)
    (hU : SWF U) : (put_proto S U).indices.Pairwise (· < ·) := by
  rw [put_proto_indices]
  exact pairwise_mergeUnion S.indices hU.1

theorem spValue_put_proto {α : Type} [AddCommMonoid α] (S U : SparseTensor α)
    (hU : SWF U) (c : List ℤ) : spValue (put_proto S U) c = spValue S c := by
  have hz : (put_zero_updates U).indices.Pairwise (· < ·) := hU.1
  show spValue (sparse_add S (put_zero_updates U)) c = _
  rw [spValue_sparse_add S (put_zero_updates U) hz c, spValue_put_zero_updates U hU c, add_zero]

theorem spValue_put_proto_ones {α : Type} [AddCommMonoid α] (S U : SparseTensor α)
    (hU : SWF U) (c : List ℤ) :
    spValue (put_proto_ones S U) c = if c ∈ (put_proto S U).indices then (1 : ℤ) else 0 := by
  have hz : (put_zero_updates U).indices.Pairwise (· < ·) := hU.1
  have hlen : (put_proto S U).values.length = (put_proto S U).indices.length :=
    (SWF_sparse_add S (put_zero_updates U) hz).2
  have hrepl : List.replicate (put_proto S U).values.length (1 : ℤ)
      = (put_proto S U).indices.map (fun _ => 1) := by
    rw [hlen, replicate_length_eq_map]
  show spValue ⟨(put_proto S U).indices,
    List.replicate (put_proto S U).values.length 1, (put_proto S U).dense_shape⟩ c = _
  rw [hrepl, spValue_mk_map _ _ _ _ (nodup_of_pairwise_lt (pairwise_put_proto S U hU))]

theorem put_retain_mask_eq {α : Type} [AddCommMonoid α] (S U : SparseTensor α)
    (hU : SWF U) :
    put_retain_mask S U = (put_proto S U).indices.map
      (fun c => decide (spValue (put_proto_ones S U) c + spValue (put_sp_mask U) c ≠ 0)) := by
  have habs : mergeUnion (put_proto S U).indices U.indices = (put_proto S U).indices := by
    refine mergeUnion_eq_left (pairwise_put_proto S U hU) hU.1 ?_
    intro x hx
    rw [put_proto_indices, mem_mergeUnion]
    exact Or.inr hx
  show ((sparse_add (put_proto_ones S U) (put_sp_mask U)).values).map _ = _
  rw [sparse_add_values, put_proto_ones_indices, put_sp_mask_indices, habs, List.map_map]
  rfl

theorem put_tensor_masked_eq {α : Type} [AddCommMonoid α] (S U : SparseTensor α)
    (hU : SWF U) :
    put_tensor_masked S U
      = ⟨((put_proto S U).indices.filter
            (fun c => decide (spValue (put_proto_ones S U) c + spValue (put_sp_mask U) c ≠ 0))),
          ((put_proto S U).indices.filter
            (fun c => decide (spValue (put_proto_ones S U) c + spValue (put_sp_mask U) c ≠ 0))).map
            (fun c => spValue S c + spValue (put_zero_updates U) c),
          S.dense_shape⟩ := by
  show sparse_retain (put_proto S U) (put_retain_mask S U) = _
  rw [put_retain_mask_eq S U hU]
  have hproto : put_proto S U
      = ⟨(put_proto S U).indices,
         (put_proto S U).indices.map (fun c => spValue S c + spValue (put_zero_updates U) c),
         S.dense_shape⟩ := rfl
  rw [hproto]
  exact sparse_retain_mk_map _ _ _ _

theorem sparse_put_dense_shape {α : Type} [AddCommMonoid α] (S U : SparseTensor α) :
    (sparse_put S U).dense_shape = S.dense_shape := rfl

theorem SWF_sparse_put {α : Type} [AddCommMonoid α] (S U : SparseTensor α) (hU : SWF U) :
    SWF (sparse_put S U) :=
  SWF_sparse_add (put_tensor_masked S U) U hU.1

/-- Characterization of `sparse_put` on well-formed inputs: the resulting
sparse tensor denotes the update value at update coordinates and the
original value everywhere else. -/
theorem spValue_sparse_put {α : Type} [AddCommMonoid α] (S U : SparseTensor α)
    (hS : SWF S) (hU : SWF U) (c : List ℤ) :
    spValue (sparse_put S U) c = if c ∈ U.indices then spValue U c else spValue S c := by
  have h1 : spValue (sparse_put S U) c
      = spValue (put_tensor_masked S U) c + spValue U c := by
    show spValue (sparse_add (put_tensor_masked S U) U) c = _
    exact spValue_sparse_add _ U hU.1 c
  have hndP : (put_proto S U).indices.Nodup :=
    nodup_of_pairwise_lt (pairwise_put_proto S U hU)
  have h2 : spValue (put_tensor_masked S U) c
      = if c ∈ (put_proto S U).indices.filter
            (fun c => decide (spValue (put_proto_ones S U) c + spValue (put_sp_mask U) c ≠ 0))
        then spValue S c + spValue (put_zero_updates U) c else 0 := by
    rw [put_tensor_masked_eq S U hU]
    exact spValue_mk_map _ _ _ _ (List.Nodup.filter _ hndP)
  rw [h1, h2, spValue_put_zero_updates U hU c, add_zero]
  by_cases hcB : c ∈ U.indices
  · have hcP : c ∈ (put_proto S U).indices := by
      rw [put_proto_indices, mem_mergeUnion]
      exact Or.inr hcB
    have hgval : spValue (put_proto_ones S U) c + spValue (put_sp_mask U) c = 0 := by
      rw [spValue_put_proto_ones S U hU c, spValue_put_sp_mask U hU c, if_pos hcP, if_pos hcB]
      decide
    have hnot : c ∉ (put_proto S U).indices.filter
        (fun c => decide (spValue (put_proto_ones S U) c + spValue (put_sp_mask U) c ≠ 0)) := by
      intro hmem
      have hdec := (List.mem_filter.mp hmem).2
      rw [hgval] at hdec
      simp at hdec
    rw [if_neg hnot, zero_add, if_pos hcB]
  · have hUval : spValue U c = 0 := spValue_eq_zero hcB
    rw [hUval, add_zero, if_neg hcB]
    by_cases hcP : c ∈ (put_proto S U).indices
    · have hgval : spValue (put_proto_ones S U) c + spValue (put_sp_mask U) c = 1 := by
        rw [spValue_put_proto_ones S U hU c, spValue_put_sp_mask U hU c, if_pos hcP,
          if_neg hcB, add_zero]
      have hmem : c ∈ (put_proto S U).indices.filter
          (fun c => decide (spValue (put_proto_ones S U) c + spValue (put_sp_mask U) c ≠ 0)) := by
        rw [List.mem_filter]
        refine ⟨hcP, ?_⟩
        rw [hgval]
        simp
      rw [if_pos hmem]
    · have hcA : c ∉ S.indices := by
        intro hA
        exact hcP (by rw [put_proto_indices, mem_mergeUnion]; exact Or.inl hA)
      have hnot : c ∉ (put_proto S U).indices.filter
          (fun c => decide (spValue (put_proto_ones S U) c + spValue (put_sp_mask U) c ≠ 0)) :=
        fun hmem => hcP (List.mem_filter.mp hmem).1
      rw [if_neg hnot, spValue_eq_zero hcA]

/-- In a well-formed sparse tensor, the denoted value at the `j`-th stored
coordinate is the `j`-th stored value. -/
theorem spValue_at_getD {α : Type} [AddCommMonoid α] (sp : SparseTensor α) (hsp : SWF sp)
    (j : ℕ) (hj : j < sp.indices.length) :
    spValue sp (sp.indices.getD j []) = sp.values.getD j 0 := by
  have hjv : j < sp.values.length := by rw [hsp.2]; exact hj
  have hjz : j < (sp.indices.zip sp.values).length := by
    rw [List.length_zip]
    exact lt_min hj hjv
  have hkeys : (sp.indices.zip sp.values).map Prod.fst = sp.indices :=
    List.map_fst_zip _ _ (le_of_eq hsp.2.symm)
  have hnd : ((sp.indices.zip sp.values).map Prod.fst).Nodup := by
    rw [hkeys]
    exact nodup_of_pairwise_lt hsp.1
  have hget : (sp.indices.zip sp.values).getD j ([], 0)
      = (sp.indices.getD j [], sp.values.getD j 0) := by
    rw [List.getD_eq_getElem _ _ hjz, List.getD_eq_getElem _ _ hj,
      List.getD_eq_getElem _ _ hjv, List.getElem_zip]
  have hmem : (sp.indices.getD j [], sp.values.getD j 0) ∈ sp.indices.zip sp.values := by
    rw [← hget, List.getD_eq_getElem _ _ hjz]
    exact List.getElem_mem _
  exact entryVal_of_mem_nodup hnd hmem

/-! Helper lemmas about `allCoords` (for the round-trip claim). -/

theorem nodup_allCoords : ∀ (s : List ℕ), (allCoords s).Nodup := by
  intro s
  induction s with
  | nil => simp [allCoords]
  | cons d ds ih =>
    rw [allCoords, List.nodup_flatMap]
    constructor
    · intro i _
      refine List.Nodup.map ?_ ih
      intro c1 c2 h
      injection h
    · refine (List.nodup_range d).imp ?_
      intro a b hab x hx1 hx2
      rw [List.mem_map] at hx1 hx2
      obtain ⟨c1, _, rfl⟩ := hx1
      obtain ⟨c2, _, h2⟩ := hx2
      injection h2 with hh _
      exact hab (by exact_mod_cast hh.symm)

/-! Helper lemmas about `batch_to_matrix_indices` and row enumeration. -/

theorem flatMap_congr {α β : Type} {l : List α} {f g : α → List β}
    (h : ∀ a ∈ l, f a = g a) : l.flatMap f = l.flatMap g := by
  induction l with
  | nil => rfl
  | cons a l ih =>
    rw [List.flatMap_cons, List.flatMap_cons, h a (List.mem_cons_self _ _),
      ih (fun b hb => h b (List.mem_cons_of_mem _ hb))]

theorem zipWith_replicate_pair (r : ℤ) : ∀ (row : List ℤ),
    List.zipWith (fun a v => [a, v]) (List.replicate row.length r) row
      = row.map (fun v => [r, v]) := by
  intro row
  induction row with
  | nil => rfl
  | cons x xs ih =>
    rw [List.length_cons, List.replicate_succ, List.zipWith_cons_cons, ih, List.map_cons]

theorem zipWith_replicate_pair_of_length (r : ℤ) (m : ℕ) (row : List ℤ)
    (h : row.length = m) :
    List.zipWith (fun a v => [a, v]) (List.replicate m r) row
      = row.map (fun v => [r, v]) := by
  subst h
  exact zipWith_replicate_pair r row

theorem raggedCoords_cons (s : ℕ) (r : List ℤ) (rs : List (List ℤ)) :
    raggedCoords s (r :: rs)
      = r.map (fun i => [(s : ℤ), i]) ++ raggedCoords (s + 1) rs := by
  rw [raggedCoords, List.enumFrom_cons, List.flatMap_cons]
  rfl

theorem btmi_flatten : ∀ (t : List (List ℤ)) (s m : ℕ), (∀ row ∈ t, row.length = m) →
    (List.zipWith (fun rrow trow => List.zipWith (fun r v => [r, v]) rrow trow)
      ((List.range' s t.length).map (fun (r : ℕ) => List.replicate m (r : ℤ))) t).flatten
    = raggedCoords s t := by
  intro t
  induction t with
  | nil => intro s m _; rfl
  | cons row rest ih =>
    intro s m h
    have hrow : row.length = m := h row (List.mem_cons_self _ _)
    rw [List.length_cons, List.range'_succ, List.map_cons, List.zipWith_cons_cons,
      List.flatten_cons, zipWith_replicate_pair_of_length (s : ℤ) m row hrow,
      ih (s + 1) m (fun r hr => h r (List.mem_cons_of_mem _ hr))]
    rw [raggedCoords_cons]

theorem batch_to_matrix_indices_def (t : List (List ℤ)) :
    batch_to_matrix_indices t
      = (List.zipWith (fun rrow trow => List.zipWith (fun r v => [r, v]) rrow trow)
          ((List.range t.length).map (fun (r : ℕ) => List.replicate (t.headD []).length (r : ℤ)))
          t).flatten := rfl

theorem batch_to_matrix_indices_eq_raggedCoords (t : List (List ℤ)) (m : ℕ)
    (hm : ∀ row ∈ t, row.length = m) :
    batch_to_matrix_indices t = raggedCoords 0 t := by
  cases t with
  | nil => rfl
  | cons row rest =>
    rw [batch_to_matrix_indices_def]
    have hhead : ((row :: rest).headD []).length = m := hm row (List.mem_cons_self _ _)
    rw [List.range_eq_range', hhead]
    exact btmi_flatten (row :: rest) 0 m hm

theorem raggedCoords_eq_range' : ∀ (t : List (List ℤ)) (s : ℕ),
    raggedCoords s t = (List.range' s t.length).flatMap
      (fun r => (t.getD (r - s) []).map (fun v => [(r : ℤ), v])) := by
  intro t
  induction t with
  | nil => intro s; rfl
  | cons row rest ih =>
    intro s
    rw [raggedCoords, List.enumFrom_cons, List.flatMap_cons, List.length_cons,
      List.range'_succ, List.flatMap_cons, Nat.sub_self]
    have htail : raggedCoords (s + 1) rest
        = (List.enumFrom (s + 1) rest).flatMap (fun p => p.2.map (fun i => [(p.1 : ℤ), i])) := rfl
    rw [← htail, ih (s + 1)]
    have hcongr : ∀ r ∈ List.range' (s + 1) rest.length,
        (rest.getD (r - (s + 1)) []).map (fun v => [(r : ℤ), v])
          = ((row :: rest).getD (r - s) []).map (fun v => [(r : ℤ), v]) := by
      intro r hr
      obtain ⟨i, _, rfl⟩ := List.mem_range'.mp hr
      have h1 : s + 1 + 1 * i - s = i + 1 := by omega
      have h2 : s + 1 + 1 * i - (s + 1) = i := by omega
      rw [h1, h2, List.getD_cons_succ]
    rw [flatMap_congr hcongr]
    rfl

theorem map_eq_range_map_getD {β : Type} : ∀ (row : List ℤ) (g : ℤ → β),
    row.map g = (List.range row.length).map (fun c => g (row.getD c 0)) := by
  intro row
  induction row with
  | nil => intro g; rfl
  | cons x xs ih =>
    intro g
    rw [List.map_cons, List.length_cons, List.range_succ_eq_map, List.map_cons, List.map_map]
    have hhead : g ((x :: xs).getD 0 0) = g x := rfl
    rw [hhead]
    congr 1
    rw [ih g]
    refine List.map_congr_left ?_
    intro c _
    rfl

theorem mem_raggedCoords : ∀ (ixs : List (List ℤ)) (s r : ℕ) (i : ℤ),
    r < ixs.length → i ∈ ixs.getD r [] →
    [((s + r : ℕ) : ℤ), i] ∈ raggedCoords s ixs := by
  intro ixs
  induction ixs with
  | nil =>
    intro s r i hr _
    simp at hr
  | cons row rest ih =>
    intro s r i hr hi
    rw [raggedCoords, List.enumFrom_cons, List.flatMap_cons]
    cases r with
    | zero =>
      refine List.mem_append_left _ ?_
      rw [List.mem_map]
      exact ⟨i, hi, by rw [Nat.add_zero]⟩
    | succ r0 =>
      refine List.mem_append_right _ ?_
      have hr0 : r0 < rest.length := by
        rw [List.length_cons] at hr
        omega
      have := ih (s + 1) r0 i hr0 hi
      rw [show s + 1 + r0 = s + (r0 + 1) by omega] at this
      exact this

/-! Helper lemmas about `booleanMask` and the dropout model. -/

theorem booleanMask_cons {α : Type} (x : α) (xs : List α) (m : Bool) (ms : List Bool) :
    booleanMask (x :: xs) (m :: ms) = (if m then [x] else []) ++ booleanMask xs ms := by
  cases m <;> simp [booleanMask, List.filter_cons]

theorem booleanMask_map_self {α : Type} (xs : List α) (g : α → Bool) :
    booleanMask xs (xs.map g) = xs.filter g := by
  unfold booleanMask
  rw [zip_self_map, List.filter_map, List.map_map]
  simp [Function.comp_def]

theorem booleanMask_all_false {α : Type} : ∀ (xs : List α) (ms : List Bool),
    (∀ b ∈ ms, b = false) → booleanMask xs ms = [] := by
  intro xs
  induction xs with
  | nil => intro ms _; simp [booleanMask]
  | cons x xs ih =>
    intro ms h
    cases ms with
    | nil => simp [booleanMask]
    | cons m ms =>
      have hm : m = false := h m (List.mem_cons_self _ _)
      subst hm
      rw [booleanMask_cons, if_neg (by simp), List.nil_append]
      exact ih ms (fun b hb => h b (List.mem_cons_of_mem _ hb))

theorem zip_booleanMask {A B : Type} (g : B → Bool) : ∀ (as : List A) (bs : List B),
    as.length = bs.length →
    (booleanMask as (bs.map g)).zip (booleanMask bs (bs.map g))
      = (as.zip bs).filter (fun e => g e.2) := by
  intro as
  induction as with
  | nil => intro bs _; rfl
  | cons a as ih =>
    intro bs h
    cases bs with
    | nil => simp at h
    | cons b bs =>
      have hlen : as.length = bs.length := by
        rw [List.length_cons, List.length_cons] at h
        omega
      rw [List.map_cons, booleanMask_cons, booleanMask_cons, List.zip_cons_cons,
        List.filter_cons]
      cases hgb : g b
      · rw [if_neg (by simp), if_neg (by simp), List.nil_append, List.nil_append]
        rw [ih bs hlen]
        simp [hgb]
      · rw [if_pos rfl, if_pos rfl, List.singleton_append, List.singleton_append,
          List.zip_cons_cons, ih bs hlen]
        simp [hgb]

theorem tf_dropout_length (p : ℚ) (mask : ℕ → Bool) (values : List ℚ) :
    (tf_dropout p mask values).length = values.length := by
  rw [tf_dropout, List.length_map, List.enum_length]

theorem tf_dropout_all_zero (p : ℚ) (mask : ℕ → Bool) (values : List ℚ)
    (h : ∀ i, mask i = false) : ∀ v ∈ tf_dropout p mask values, v = 0 := by
  intro v hv
  rw [tf_dropout, List.mem_map] at hv
  obtain ⟨pr, _, rfl⟩ := hv
  rw [h pr.1]
  simp

/-! Helper lemmas about `rowPairs` and `allPairs` (for `index_list_to_sparse`). -/

theorem rowPairs_ok (b row : ℕ) : ∀ (is : List ℤ), (∀ i ∈ is, i < (b : ℤ)) →
    rowPairs b row is = Except.ok (is.map (fun i => [(row : ℤ), i])) := by
  intro is
  induction is with
  | nil => intro _; rfl
  | cons i is ih =>
    intro h
    rw [rowPairs, if_neg (not_le.mpr (h i (List.mem_cons_self _ _))),
      ih (fun j hj => h j (List.mem_cons_of_mem _ hj))]
    rfl

theorem rowPairs_error (b row : ℕ) : ∀ (is : List ℤ), (∃ i ∈ is, (b : ℤ) ≤ i) →
    ∃ e, rowPairs b row is = Except.error e := by
  intro is
  induction is with
  | nil =>
    rintro ⟨i, hi, _⟩
    cases hi
  | cons i is ih =>
    rintro ⟨j, hj, hbj⟩
    by_cases hbi : (b : ℤ) ≤ i
    · exact ⟨_, by rw [rowPairs, if_pos hbi]⟩
    · rcases List.mem_cons.mp hj with rfl | hj2
      · exact absurd hbj hbi
      · obtain ⟨e, he⟩ := ih ⟨j, hj2, hbj⟩
        refine ⟨e, ?_⟩
        rw [rowPairs, if_neg hbi, he]
        rfl

theorem allPairs_ok (b : ℕ) : ∀ (rs : List (List ℤ)) (s : ℕ),
    (∀ r ∈ rs, ∀ i ∈ r, i < (b : ℤ)) →
    allPairs b s rs = Except.ok (raggedCoords s rs) := by
  intro rs
  induction rs with
  | nil => intro s _; rfl
  | cons r rs ih =>
    intro s h
    have h1 := rowPairs_ok b s r (h r (List.mem_cons_self _ _))
    have h2 := ih (s + 1) (fun r2 hr2 => h r2 (List.mem_cons_of_mem _ hr2))
    simp only [allPairs, h1, h2, Except.map]
    rw [raggedCoords_cons]

theorem allPairs_error (b : ℕ) : ∀ (rs : List (List ℤ)) (s : ℕ),
    (∃ r ∈ rs, ∃ i ∈ r, (b : ℤ) ≤ i) →
    ∃ e, allPairs b s rs = Except.error e := by
  intro rs
  induction rs with
  | nil =>
    rintro s ⟨r, hr, _⟩
    cases hr
  | cons r rs ih =>
    rintro s ⟨r0, hr0, hviol⟩
    by_cases hv : ∃ i ∈ r, (b : ℤ) ≤ i
    · obtain ⟨e, he⟩ := rowPairs_error b s r hv
      exact ⟨e, by simp only [allPairs, he]⟩
    · have hrok : ∀ i ∈ r, i < (b : ℤ) := by
        intro i hi
        refine not_le.mp ?_
        exact fun hle => hv ⟨i, hi, hle⟩
      rcases List.mem_cons.mp hr0 with rfl | hr0tail
      · obtain ⟨i, hi, hbi⟩ := hviol
        exact absurd hbi (not_le.mpr (hrok i hi))
      · obtain ⟨e, he⟩ := ih (s + 1) ⟨r0, hr0tail, hviol⟩
        refine ⟨e, ?_⟩
        simp only [allPairs, rowPairs_ok b s r hrok, he, Except.map]

theorem index_list_to_sparse_def (ixs : List (List ℤ)) (shape : List ℕ) :
    index_list_to_sparse ixs shape
      = (allPairs (shape.getD 1 0) 0 ixs).map
          (fun idx => ⟨idx, List.replicate idx.length 1, shape⟩) := rfl

theorem batch_to_matrix_indices_checked_def (dt : DType) (t : List (List ℤ)) :
    batch_to_matrix_indices_checked dt t
      = if dt ≠ DType.int32 ∧ dt ≠ DType.int64 then
          Except.error "Invalid tensor type: expected int32 or int64"
        else Except.ok (batch_to_matrix_indices t) := rfl

/-! The claims. -/

/-- C1: on well-formed sparse tensors with equal `dense_shape`, `sparse_put`
returns a sparse tensor with `sp_tensor`'s dense shape that denotes, at
every coordinate listed in `sp_updates.indices`, the corresponding
`sp_updates.values` entry (even where `sp_tensor` stored a value, and even
when the update value is zero); at every coordinate of `sp_tensor.indices`
absent from the updates, the original `sp_tensor` value; and at every
coordinate absent from both index sets, the default value zero. -/
theorem sparse_put_overrides_and_preserves {α : Type} [AddCommMonoid α]
    (S U : SparseTensor α) (hS : SWF S) (hU : SWF U)
    (hsh : S.dense_shape = U.dense_shape) :
    (sparse_put S U).dense_shape = S.dense_shape
    ∧ (∀ j, j < U.indices.length →
        spValue (sparse_put S U) (U.indices.getD j []) = U.values.getD j 0)
    ∧ (∀ c, c ∉ U.indices → c ∈ S.indices → spValue (sparse_put S U) c = spValue S c)
    ∧ (∀ c, c ∉ U.indices → c ∉ S.indices → spValue (sparse_put S U) c = 0) := by
  refine ⟨sparse_put_dense_shape S U, ?_, ?_, ?_⟩
  · intro j hj
    have hmem : U.indices.getD j [] ∈ U.indices := by
      rw [List.getD_eq_getElem _ _ hj]
      exact List.getElem_mem _
    rw [spValue_sparse_put S U hS hU _, if_pos hmem, spValue_at_getD U hU j hj]
  · intro c hcU _
    rw [spValue_sparse_put S U hS hU c, if_neg hcU]
  · intro c hcU hcS
    rw [spValue_sparse_put S U hS hU c, if_neg hcU, spValue_eq_zero hcS]

/-- Witness for C1 at concrete tensors, with an overlapping coordinate whose
update value is zero. -/
theorem sparse_put_overrides_and_preserves_witness :
    (sparse_put (⟨[[0,0],[1,1]], [5,7], [2,2]⟩ : SparseTensor ℤ)
        ⟨[[0,0],[1,0]], [0,9], [2,2]⟩).dense_shape = [2,2]
    ∧ spValue (sparse_put (⟨[[0,0],[1,1]], [5,7], [2,2]⟩ : SparseTensor ℤ)
        ⟨[[0,0],[1,0]], [0,9], [2,2]⟩) [0,0] = 0
    ∧ spValue (sparse_put (⟨[[0,0],[1,1]], [5,7], [2,2]⟩ : SparseTensor ℤ)
        ⟨[[0,0],[1,0]], [0,9], [2,2]⟩) [1,0] = 9
    ∧ spValue (sparse_put (⟨[[0,0],[1,1]], [5,7], [2,2]⟩ : SparseTensor ℤ)
        ⟨[[0,0],[1,0]], [0,9], [2,2]⟩) [1,1] = 7
    ∧ spValue (sparse_put (⟨[[0,0],[1,1]], [5,7], [2,2]⟩ : SparseTensor ℤ)
        ⟨[[0,0],[1,0]], [0,9], [2,2]⟩) [0,1] = 0 := by
  have h := sparse_put_overrides_and_preserves
    (⟨[[0,0],[1,1]], [5,7], [2,2]⟩ : SparseTensor ℤ) ⟨[[0,0],[1,0]], [0,9], [2,2]⟩
    ⟨by decide, by decide⟩ ⟨by decide, by decide⟩ rfl
  refine ⟨h.1, ?_, ?_, ?_, ?_⟩
  · exact h.2.1 0 (by decide)
  · exact h.2.1 1 (by decide)
  · refine (h.2.2.1 [1,1] (by decide) (by decide)).trans ?_
    decide
  · exact h.2.2.2 [0,1] (by decide) (by decide)

/-- C2: applying the same well-formed update twice is a no-op; the twice
updated tensor denotes the same sparse tensor (equal `dense_shape` and the
same coordinate-to-value map) as the once updated one. -/
theorem sparse_put_idempotent {α : Type} [AddCommMonoid α]
    (S U : SparseTensor α) (hS : SWF S) (hU : SWF U)
    (hsh : S.dense_shape = U.dense_shape) :
    (sparse_put (sparse_put S U) U).dense_shape = (sparse_put S U).dense_shape
    ∧ ∀ c, spValue (sparse_put (sparse_put S U) U) c = spValue (sparse_put S U) c := by
  have hP : SWF (sparse_put S U) := SWF_sparse_put S U hU
  refine ⟨sparse_put_dense_shape _ _, ?_⟩
  intro c
  by_cases hc : c ∈ U.indices
  · rw [spValue_sparse_put (sparse_put S U) U hP hU c, if_pos hc,
      spValue_sparse_put S U hS hU c, if_pos hc]
  · rw [spValue_sparse_put (sparse_put S U) U hP hU c, if_neg hc]

/-- Witness for C2 at concrete tensors. -/
theorem sparse_put_idempotent_witness :
    (sparse_put (sparse_put (⟨[[0,0],[1,1]], [5,7], [2,2]⟩ : SparseTensor ℤ)
        ⟨[[0,0],[1,0]], [0,9], [2,2]⟩) ⟨[[0,0],[1,0]], [0,9], [2,2]⟩).dense_shape
      = (sparse_put (⟨[[0,0],[1,1]], [5,7], [2,2]⟩ : SparseTensor ℤ)
        ⟨[[0,0],[1,0]], [0,9], [2,2]⟩).dense_shape
    ∧ ∀ c, spValue (sparse_put (sparse_put (⟨[[0,0],[1,1]], [5,7], [2,2]⟩ : SparseTensor ℤ)
        ⟨[[0,0],[1,0]], [0,9], [2,2]⟩) ⟨[[0,0],[1,0]], [0,9], [2,2]⟩) c
      = spValue (sparse_put (⟨[[0,0],[1,1]], [5,7], [2,2]⟩ : SparseTensor ℤ)
        ⟨[[0,0],[1,0]], [0,9], [2,2]⟩) c :=
  sparse_put_idempotent (⟨[[0,0],[1,1]], [5,7], [2,2]⟩ : SparseTensor ℤ)
    ⟨[[0,0],[1,0]], [0,9], [2,2]⟩ ⟨by decide, by decide⟩ ⟨by decide, by decide⟩ rfl

/-- C3: converting a dense tensor to its sparse coordinate-list form and
materializing it back reproduces every element (zeros included), and the
shapes agree. -/
theorem to_dense_to_sparse_roundtrip {α : Type} [AddCommMonoid α] [DecidableEq α]
    (T : DenseTensor α) :
    (to_dense (to_sparse T)).shape = T.shape
    ∧ ∀ c ∈ allCoords T.shape, (to_dense (to_sparse T)).data c = T.data c := by
  refine ⟨rfl, ?_⟩
  intro c hc
  have hnd : ((allCoords T.shape).filter (fun c => decide (T.data c ≠ 0))).Nodup :=
    List.Nodup.filter _ (nodup_allCoords T.shape)
  show spValue ⟨(allCoords T.shape).filter (fun c => decide (T.data c ≠ 0)),
    ((allCoords T.shape).filter (fun c => decide (T.data c ≠ 0))).map T.data, T.shape⟩ c
    = T.data c
  rw [spValue_mk_map _ _ _ _ hnd]
  by_cases h0 : T.data c = 0
  · rw [if_neg, h0]
    intro hmem
    have hdec := (List.mem_filter.mp hmem).2
    rw [h0] at hdec
    simp at hdec
  · rw [if_pos]
    rw [List.mem_filter]
    exact ⟨hc, by simp [h0]⟩

/-- Witness for C3 at a concrete dense tensor, checking a non-zero entry and
a zero entry. -/
theorem to_dense_to_sparse_roundtrip_witness :
    (to_dense (to_sparse (⟨[2,2], fun c => if c = [0,1] then 5 else 0⟩ : DenseTensor ℤ))).shape
      = [2,2]
    ∧ (to_dense (to_sparse (⟨[2,2], fun c => if c = [0,1] then 5 else 0⟩ : DenseTensor ℤ))).data
        [0,1] = 5
    ∧ (to_dense (to_sparse (⟨[2,2], fun c => if c = [0,1] then 5 else 0⟩ : DenseTensor ℤ))).data
        [1,0] = 0 := by
  have h := to_dense_to_sparse_roundtrip (⟨[2,2], fun c => if c = [0,1] then 5 else 0⟩ :
    DenseTensor ℤ)
  exact ⟨h.1, h.2 [0,1] (by decide), h.2 [1,0] (by decide)⟩

/-- C4: on a rectangular `[n, m]` integer tensor, `batch_to_matrix_indices`
enumerates exactly the pairs `[r, tensor[r][c]]` in row-major order (`r`
ascending, then `c` ascending); in particular it has exactly `n * m` rows,
each of the form `[r, v]` with `r < n`. -/
theorem batch_to_matrix_indices_spec (t : List (List ℤ)) (n m : ℕ)
    (hn : t.length = n) (hm : ∀ row ∈ t, row.length = m) :
    batch_to_matrix_indices t
      = (List.range n).flatMap
          (fun r => (List.range m).map (fun c => [(r : ℤ), (t.getD r []).getD c 0]))
    ∧ (batch_to_matrix_indices t).length = n * m
    ∧ ∀ p ∈ batch_to_matrix_indices t, ∃ r : ℕ, r < n ∧ ∃ v : ℤ, p = [(r : ℤ), v] := by
  subst hn
  have heq : batch_to_matrix_indices t
      = (List.range t.length).flatMap
          (fun r => (List.range m).map (fun c => [(r : ℤ), (t.getD r []).getD c 0])) := by
    rw [batch_to_matrix_indices_eq_raggedCoords t m hm, raggedCoords_eq_range' t 0,
      ← List.range_eq_range']
    refine flatMap_congr ?_
    intro r hr
    rw [List.mem_range] at hr
    rw [Nat.sub_zero]
    have hlen : (t.getD r []).length = m := by
      rw [List.getD_eq_getElem _ _ hr]
      exact hm _ (List.getElem_mem _)
    rw [map_eq_range_map_getD (t.getD r []) (fun v => [(r : ℤ), v]), hlen]
  refine ⟨heq, ?_, ?_⟩
  · rw [heq, List.length_flatMap]
    have h1 : List.map (List.length ∘ (fun (r : ℕ) => (List.range m).map
        (fun (c : ℕ) => [(r : ℤ), (t.getD r []).getD c 0]))) (List.range t.length)
        = List.map (fun _ => m) (List.range t.length) := by
      refine List.map_congr_left ?_
      intro r _
      show ((List.range m).map _).length = m
      rw [List.length_map, List.length_range]
    rw [h1, ← replicate_length_eq_map, List.length_range, List.sum_replicate, smul_eq_mul]
  · intro p hp
    rw [heq, List.mem_flatMap] at hp
    obtain ⟨r, hr, hp⟩ := hp
    rw [List.mem_range] at hr
    rw [List.mem_map] at hp
    obtain ⟨c, _, rfl⟩ := hp
    exact ⟨r, hr, _, rfl⟩

/-- Witness for C4 at the source docstring's example tensor. -/
theorem batch_to_matrix_indices_spec_witness :
    batch_to_matrix_indices [[1,2],[2,5]]
      = (List.range 2).flatMap
          (fun (r : ℕ) => (List.range 2).map
            (fun (c : ℕ) => [(r : ℤ), (([[1,2],[2,5]] : List (List ℤ)).getD r []).getD c 0]))
    ∧ (batch_to_matrix_indices [[1,2],[2,5]]).length = 2 * 2
    ∧ ∀ p ∈ batch_to_matrix_indices [[1,2],[2,5]],
        ∃ r : ℕ, r < 2 ∧ ∃ v : ℤ, p = [(r : ℤ), v] :=
  batch_to_matrix_indices_spec [[1,2],[2,5]] 2 2 (by decide) (by decide)

/-- C5: `dense_put` on a well-formed update of matching shape produces a
dense tensor of the tensor's shape holding the update value at every update
coordinate and the original value everywhere else (the input tensor is left
untouched: the result is a fresh tensor). -/
theorem dense_put_spec {α : Type} [AddCommMonoid α] (t : DenseTensor α) (u : SparseTensor α)
    (hu : SWF u) (hsh : t.shape = u.dense_shape) :
    (dense_put t u).shape = t.shape
    ∧ (∀ c ∈ u.indices, (dense_put t u).data c = spValue u c)
    ∧ (∀ c, c ∉ u.indices → (dense_put t u).data c = t.data c) := by
  have hmarker : ∀ c, spValue (⟨u.indices, List.replicate u.values.length (1 : ℚ),
      u.dense_shape⟩ : SparseTensor ℚ) c = if c ∈ u.indices then (1 : ℚ) else 0 := by
    intro c
    have hrepl : List.replicate u.values.length (1 : ℚ) = u.indices.map (fun _ => 1) := by
      rw [hu.2, replicate_length_eq_map]
    rw [hrepl]
    exact spValue_mk_map _ _ _ _ (nodup_of_pairwise_lt hu.1)
  refine ⟨rfl, ?_, ?_⟩
  · intro c hc
    show (if spValue (⟨u.indices, List.replicate u.values.length (1 : ℚ), u.dense_shape⟩ :
        SparseTensor ℚ) c ≠ 0 then spValue u c else t.data c) = spValue u c
    rw [hmarker c, if_pos hc, if_pos one_ne_zero]
  · intro c hc
    show (if spValue (⟨u.indices, List.replicate u.values.length (1 : ℚ), u.dense_shape⟩ :
        SparseTensor ℚ) c ≠ 0 then spValue u c else t.data c) = t.data c
    rw [hmarker c, if_neg hc, if_neg (by simp)]

/-- Witness for C5 at a concrete dense tensor and update (the update at
`[0,0]` is zero and still overrides the stored 4). -/
theorem dense_put_spec_witness :
    (dense_put (⟨[2,2], fun c => if c = [0,0] then 4 else 0⟩ : DenseTensor ℤ)
        ⟨[[0,0],[1,0]], [0,9], [2,2]⟩).shape = [2,2]
    ∧ (dense_put (⟨[2,2], fun c => if c = [0,0] then 4 else 0⟩ : DenseTensor ℤ)
        ⟨[[0,0],[1,0]], [0,9], [2,2]⟩).data [0,0]
      = spValue (⟨[[0,0],[1,0]], [0,9], [2,2]⟩ : SparseTensor ℤ) [0,0]
    ∧ (dense_put (⟨[2,2], fun c => if c = [0,0] then 4 else 0⟩ : DenseTensor ℤ)
        ⟨[[0,0],[1,0]], [0,9], [2,2]⟩).data [1,1] = 0 := by
  have h := dense_put_spec (⟨[2,2], fun c => if c = [0,0] then 4 else 0⟩ : DenseTensor ℤ)
    ⟨[[0,0],[1,0]], [0,9], [2,2]⟩ ⟨by decide, by decide⟩ rfl
  exact ⟨h.1, h.2.1 [0,0] (by decide), h.2.2 [1,1] (by decide)⟩

/-- C6: `index_list_to_sparse` fails with a `ValueError` exactly when some
listed index reaches `dense_shape[1]`; otherwise it returns the
`SparseTensorValue` whose indices are the `[row, i]` pairs in enumeration
order, whose values are ones (as many as indices), and whose dense shape is
the given one. -/
theorem index_list_to_sparse_spec (ixs : List (List ℤ)) (shape : List ℕ) :
    ((∃ e, index_list_to_sparse ixs shape = Except.error e)
      ↔ ∃ row ∈ ixs, ∃ i ∈ row, ((shape.getD 1 0 : ℕ) : ℤ) ≤ i)
    ∧ ((∀ row ∈ ixs, ∀ i ∈ row, i < ((shape.getD 1 0 : ℕ) : ℤ)) →
      index_list_to_sparse ixs shape
        = Except.ok ⟨raggedCoords 0 ixs, List.replicate (raggedCoords 0 ixs).length 1, shape⟩) := by
  constructor
  · constructor
    · rintro ⟨e, he⟩
      by_contra hno
      push_neg at hno
      have hok := allPairs_ok (shape.getD 1 0) ixs 0
        (fun r hr i hi => hno r hr i hi)
      rw [index_list_to_sparse_def, hok] at he
      simp [Except.map] at he
    · rintro ⟨row, hrow, i, hi, hbi⟩
      obtain ⟨e, he⟩ := allPairs_error (shape.getD 1 0) ixs 0 ⟨row, hrow, i, hi, hbi⟩
      refine ⟨e, ?_⟩
      rw [index_list_to_sparse_def, he]
      rfl
  · intro h
    rw [index_list_to_sparse_def, allPairs_ok _ _ _ h]
    rfl

/-- Witness for C6: the spec's bound-violation example raises, and the
source docstring's example converts to the documented value. -/
theorem index_list_to_sparse_spec_witness :
    (∃ e, index_list_to_sparse [[0,12]] [1,10] = Except.error e)
    ∧ index_list_to_sparse [[0,5],[0,2,7],[1]] [3,10]
        = Except.ok ⟨[[0,0],[0,5],[1,0],[1,2],[1,7],[2,1]], List.replicate 6 1, [3,10]⟩ := by
  constructor
  · exact (index_list_to_sparse_spec [[0,12]] [1,10]).1.mpr
      ⟨[0,12], by decide, 12, by decide, by decide⟩
  · exact ((index_list_to_sparse_spec [[0,5],[0,2,7],[1]] [3,10]).2 (by decide)).trans (by rfl)

/-- C7: `sparse_dropout` keeps exactly the entries whose value is non-zero
after dropout (its entry list is the non-zero filtering of the dropped
entry list, so no explicit zeros survive), and with keep probability `0`
(under which the random keep mask is everywhere false) the result has no
indices and no values, whatever the input size. -/
theorem sparse_dropout_spec (p : ℚ) (mask : ℕ → Bool) (sp : SparseTensor ℚ)
    (hlen : sp.values.length = sp.indices.length)
    (hp : p = 0 → ∀ i, mask i = false) :
    (sparse_dropout p mask sp).dense_shape = sp.dense_shape
    ∧ (∀ v ∈ (sparse_dropout p mask sp).values, v ≠ 0)
    ∧ ((sparse_dropout p mask sp).indices.zip (sparse_dropout p mask sp).values
        = (sp.indices.zip (tf_dropout p mask sp.values)).filter (fun e => decide (e.2 ≠ 0)))
    ∧ (p = 0 →
        (sparse_dropout p mask sp).indices = [] ∧ (sparse_dropout p mask sp).values = []) := by
  have hdl : sp.indices.length = (tf_dropout p mask sp.values).length := by
    rw [tf_dropout_length]
    exact hlen.symm
  have hvals : (sparse_dropout p mask sp).values
      = (tf_dropout p mask sp.values).filter (fun v => decide (v ≠ 0)) := by
    show booleanMask (tf_dropout p mask sp.values)
      ((tf_dropout p mask sp.values).map (fun v => decide (v ≠ 0))) = _
    exact booleanMask_map_self _ _
  refine ⟨rfl, ?_, ?_, ?_⟩
  · intro v hv
    rw [hvals, List.mem_filter] at hv
    simpa using hv.2
  · exact zip_booleanMask _ sp.indices (tf_dropout p mask sp.values) hdl
  · intro hp0
    have hall : ∀ i, mask i = false := hp hp0
    constructor
    · show booleanMask sp.indices
        ((tf_dropout p mask sp.values).map (fun v => decide (v ≠ 0))) = []
      refine booleanMask_all_false _ _ ?_
      intro b hb
      rw [List.mem_map] at hb
      obtain ⟨v, hv, rfl⟩ := hb
      rw [tf_dropout_all_zero p mask sp.values hall v hv]
      simp
    · rw [hvals]
      refine List.filter_eq_nil_iff.mpr ?_
      intro v hv
      rw [tf_dropout_all_zero p mask sp.values hall v hv]
      simp

/-- Witness for C7 with keep probability `0` (all-false keep mask) on a
concrete sparse tensor. -/
theorem sparse_dropout_spec_witness :
    (sparse_dropout 0 (fun _ => false) ⟨[[0,0],[0,1]], [3,4], [2,2]⟩).dense_shape = [2,2]
    ∧ (sparse_dropout 0 (fun _ => false) ⟨[[0,0],[0,1]], [3,4], [2,2]⟩).indices = []
    ∧ (sparse_dropout 0 (fun _ => false) ⟨[[0,0],[0,1]], [3,4], [2,2]⟩).values = [] := by
  have h := sparse_dropout_spec 0 (fun _ => false) ⟨[[0,0],[0,1]], [3,4], [2,2]⟩ rfl
    (fun _ _ => rfl)
  exact ⟨h.1, (h.2.2.2 rfl).1, (h.2.2.2 rfl).2⟩

/-- C8: `complete_shape` returns a fully defined shape unchanged, and on a
rank-2 shape with unknown leading dimension and explicit trailing dimension
it fills in the reference tensor's leading dimension. -/
theorem complete_shape_spec {α : Type} (t : DenseTensor α) (shape : List (Option ℕ)) :
    (shape.all (fun d => d.isSome) = true → complete_shape t shape = shape)
    ∧ ∀ m : ℕ, shape = [none, some m] →
        complete_shape t shape = [some (t.shape.headD 0), some m] := by
  constructor
  · intro h
    rw [complete_shape, if_pos h]
  · intro m hm
    subst hm
    rw [complete_shape, if_neg (by simp)]
    rfl

/-- Witness for C8: a reference tensor with leading dimension 7 completes
`[None, 5]` to `[7, 5]`, and a fully defined shape is unchanged. -/
theorem complete_shape_spec_witness :
    complete_shape (⟨[7,2], fun _ => (0 : ℤ)⟩ : DenseTensor ℤ) [none, some 5]
      = [some 7, some 5]
    ∧ complete_shape (⟨[7,2], fun _ => (0 : ℤ)⟩ : DenseTensor ℤ) [some 3, some 4]
      = [some 3, some 4] :=
  ⟨(complete_shape_spec (⟨[7,2], fun _ => (0 : ℤ)⟩ : DenseTensor ℤ) [none, some 5]).2 5 rfl,
   (complete_shape_spec (⟨[7,2], fun _ => (0 : ℤ)⟩ : DenseTensor ℤ) [some 3, some 4]).1
     (by decide)⟩

/-- C9: `batch_to_matrix_indices` raises its `TypeError` exactly for element
dtypes other than int32 and int64; for int32 or int64 inputs it returns the
index expansion. -/
theorem batch_to_matrix_indices_dtype_spec (dt : DType) (t : List (List ℤ)) :
    ((dt ≠ DType.int32 ∧ dt ≠ DType.int64) →
      ∃ e, batch_to_matrix_indices_checked dt t = Except.error e)
    ∧ ((dt = DType.int32 ∨ dt = DType.int64) →
      batch_to_matrix_indices_checked dt t = Except.ok (batch_to_matrix_indices t)) := by
  constructor
  · intro h
    refine ⟨"Invalid tensor type: expected int32 or int64", ?_⟩
    rw [batch_to_matrix_indices_checked_def, if_pos h]
  · intro h
    rw [batch_to_matrix_indices_checked_def, if_neg ?_]
    rintro ⟨h1, h2⟩
    rcases h with rfl | rfl
    · exact h1 rfl
    · exact h2 rfl

/-- Witness for C9: a float32 input fails the check and an int32 input
passes it. -/
theorem batch_to_matrix_indices_dtype_spec_witness :
    (∃ e, batch_to_matrix_indices_checked DType.float32 [[1,2],[2,5]] = Except.error e)
    ∧ batch_to_matrix_indices_checked DType.int32 [[1,2],[2,5]]
        = Except.ok (batch_to_matrix_indices [[1,2],[2,5]]) :=
  ⟨(batch_to_matrix_indices_dtype_spec DType.float32 [[1,2],[2,5]]).1
      ⟨by decide, by decide⟩,
   (batch_to_matrix_indices_dtype_spec DType.int32 [[1,2],[2,5]]).2 (Or.inl rfl)⟩

/-- C10: `index_list_to_sparse` checks only the upper bound: when every
listed index is below `dense_shape[1]`, the conversion succeeds no matter
how many rows there are (row numbers are never compared with
`dense_shape[0]`) and every listed pair `[row, i]` — negative `i`
included — appears in the returned indices. -/
theorem index_list_to_sparse_no_lower_bound_check (ixs : List (List ℤ)) (shape : List ℕ)
    (hub : ∀ row ∈ ixs, ∀ i ∈ row, i < ((shape.getD 1 0 : ℕ) : ℤ)) :
    ∃ sp, index_list_to_sparse ixs shape = Except.ok sp
      ∧ ∀ (r : ℕ) (i : ℤ), r < ixs.length → i ∈ ixs.getD r [] →
          [(r : ℤ), i] ∈ sp.indices := by
  refine ⟨⟨raggedCoords 0 ixs, List.replicate (raggedCoords 0 ixs).length 1, shape⟩, ?_, ?_⟩
  · rw [index_list_to_sparse_def, allPairs_ok _ _ _ hub]
    rfl
  · intro r i hr hi
    show [(r : ℤ), i] ∈ raggedCoords 0 ixs
    have h := mem_raggedCoords ixs 0 r i hr hi
    rw [Nat.zero_add] at h
    exact h

/-- Witness for C10: a negative index and a row number beyond
`dense_shape[0]` both pass, and both pairs appear in the result. -/
theorem index_list_to_sparse_no_lower_bound_check_witness :
    ∃ sp, index_list_to_sparse [[-3],[4]] [1,10] = Except.ok sp
      ∧ [(0 : ℤ), -3] ∈ sp.indices ∧ [(1 : ℤ), 4] ∈ sp.indices := by
  obtain ⟨sp, hok, hmem⟩ :=
    index_list_to_sparse_no_lower_bound_check [[-3],[4]] [1,10] (by decide)
  exact ⟨sp, hok, hmem 0 (-3) (by decide) (by decide), hmem 1 4 (by decide) (by decide)⟩

end Tensorx
